import Mathlib

/-!
Verification of the word-manipulation core of `presentations.py`.

Words and alphabets are lists of integers, following the source's convention:
a generator is a nonzero integer, the negation of a generator denotes its
inverse, and `0` denotes the group identity (never part of a well-formed word).

Each `def` below is a shallow embedding of the identically named Python
function.  Python's total indexing contracts (`alphabet[-1]`, `alphabet[0]`,
`alphabet.index(c) + 1`) are rendered with `getLastD`/`headD`/`getD` with
default `0`; every claim supplies the "Assumes" hypotheses of the source
(non-empty duplicate-free alphabet, letters drawn from the alphabet) under
which these defaults are never consulted.
-/

/-- Embedding of `standardAlphabet(n)`: the loop `for i in range(1, n+1):
alphabet.extend([i, -i])`. -/
def standardAlphabet (n : ℕ) : List ℤ :=
  (List.range' 1 n).flatMap (fun i => [(i : ℤ), -(i : ℤ)])

/-- Embedding of `cyclicShiftLeft(list, n)` = `list[n:] + list[:n]` for the
non-negative shifts the source ever uses (Python slice clamping agrees with
`drop`/`take` clamping). -/
def cyclicShiftLeft (l : List ℤ) (n : ℕ) : List ℤ :=
  l.drop n ++ l.take n

/-- Embedding of `cyclicShifts(list)`: starts with `list` itself, then appends
`cyclicShiftLeft(list, i)` for `i = 1, 2, ...` up to `len(list) - 1`, breaking
at the first `i` whose shift reproduces `list`.  The loop with `break` is the
`takeWhile` over the index range. -/
def cyclicShifts (l : List ℤ) : List (List ℤ) :=
  l :: ((List.range' 1 (l.length - 1)).takeWhile
          (fun i => decide (cyclicShiftLeft l i ≠ l))).map (fun i => cyclicShiftLeft l i)

/-- Embedding of `inverse(list)`: the loop appends `-list[len(list)-i]` for
`i = 1, ..., len(list)`, i.e. it negates every entry and reverses. -/
def inverse (l : List ℤ) : List ℤ :=
  (l.map (fun x => -x)).reverse

/-- Embedding of `inverseCyclicShifts(list)`: for each cyclic shift, append the
shift and then its inverse. -/
def inverseCyclicShifts (l : List ℤ) : List (List ℤ) :=
  (cyclicShifts l).flatMap (fun s => [s, inverse s])

/-- Embedding of `isCyclicallyReduced(list)`: `for i in range(len(list)):
if list[i-1] == -list[i]: return False`.  Python's `list[i-1]` at `i = 0` is
`list[-1]`, the last element, so the predecessor index is `(i + len - 1) % len`. -/
def isCyclicallyReduced (l : List ℤ) : Bool :=
  (List.range l.length).all
    (fun i => decide (¬ l.getD ((i + l.length - 1) % l.length) 0 = -l.getD i 0))

/-- Embedding of `shortLexPrecedes(list0, list1, alphabet)`: the source tests
`list1 == []` first, then `list0 == []`, then compares distinct heads by
`alphabet.index`, else recurses on the tails. -/
def shortLexPrecedes (l0 l1 : List ℤ) (A : List ℤ) : Bool :=
  match l0, l1 with
  | _, [] => false
  | [], _ :: _ => true
  | c0 :: t0, c1 :: t1 =>
    if c0 ≠ c1 then decide (A.indexOf c0 < A.indexOf c1)
    else shortLexPrecedes t0 t1 A

/-- Embedding of `isCyclicInverselyMinimal(list, alphabet)`: no member of
`inverseCyclicShifts(list)` strictly precedes `list`. -/
def isCyclicInverselyMinimal (l : List ℤ) (A : List ℤ) : Bool :=
  (inverseCyclicShifts l).all (fun s => !shortLexPrecedes s l A)

/-- Embedding of `odometerSuccessor(list, alphabet)`: empty input is returned
unchanged; otherwise, if the last letter is not the alphabet's last letter it
is bumped to the next letter (`alphabet[alphabet.index(list[-1])+1]`), else the
function carries into the prefix and resets the last position to `alphabet[0]`. -/
def odometerSuccessor (l : List ℤ) (A : List ℤ) : List ℤ :=
  if h : l = [] then []
  else if l.getLastD 0 ≠ A.getLastD 0 then
    l.dropLast ++ [A.getD (A.indexOf (l.getLastD 0) + 1) 0]
  else
    odometerSuccessor l.dropLast A ++ [A.headD 0]
termination_by l.length
decreasing_by
  simp only [List.length_dropLast]
  exact Nat.sub_lt (List.length_pos.mpr h) one_pos

/-- Embedding of `shortLexSuccessor(list, alphabet)`: the successor of the
empty word is `[alphabet[0]]`; a word consisting entirely of the alphabet's
last letter (the flag loop `isAllLastLetter`) gets `alphabet[0]` prepended to
its odometer successor; any other word is just odometer-incremented. -/
def shortLexSuccessor (l : List ℤ) (A : List ℤ) : List ℤ :=
  if l = [] then [A.headD 0]
  else if l.all (fun c => decide (c = A.getLastD 0)) then
    A.headD 0 :: odometerSuccessor l A
  else
    odometerSuccessor l A

/-- Embedding of `nondecreasingPartitionsStartingWith(k, n)`.  The source
assumes `k` positive; for `k = 0 < n` the Python recursion would not terminate,
so that out-of-contract case is totalized to `[]` here (no claim touches it).
Python's `range(k, n-k+1)` is `List.range' k (n - k + 1 - k)`. -/
def nondecreasingPartitionsStartingWith (k n : ℕ) : List (List ℕ) :=
  if k = n then [[n]]
  else if h : 0 < k ∧ k < n then
    (List.range' k (n - k + 1 - k)).flatMap
      (fun i => (nondecreasingPartitionsStartingWith i (n - k)).map (fun p => k :: p))
  else []
termination_by n
decreasing_by exact Nat.sub_lt (Nat.lt_of_lt_of_le h.1 (Nat.le_of_lt h.2)) h.1

/-- Embedding of `nondecreasingPartitions(n)`: concatenates
`nondecreasingPartitionsStartingWith(i, n)` for `i = 1, ..., n`. -/
def nondecreasingPartitions (n : ℕ) : List (List ℕ) :=
  (List.range' 1 n).flatMap (fun i => nondecreasingPartitionsStartingWith i n)

/-! ### Basic facts about `inverse` -/

theorem inverse_involutive (l : List ℤ) : inverse (inverse l) = l := by
  simp [inverse, List.map_reverse, List.map_map, Function.comp_def]

theorem inverse_append (x y : List ℤ) :
    inverse (x ++ y) = inverse y ++ inverse x := by
  simp [inverse]

theorem length_inverse (l : List ℤ) : (inverse l).length = l.length := by
  simp [inverse]

theorem mem_inverse_iff (c : ℤ) (l : List ℤ) : c ∈ inverse l ↔ -c ∈ l := by
  simp only [inverse, List.mem_reverse, List.mem_map]
  constructor
  · rintro ⟨d, hd, rfl⟩
    simpa using hd
  · intro h
    exact ⟨-c, h, by ring⟩

/-- Claim C9: `inverse` is an involution on arbitrary integer lists, and the
inverse of the empty word is the empty word. -/
theorem inverse_inverse_eq_self (w : List ℤ) :
    inverse (inverse w) = w ∧ inverse ([] : List ℤ) = [] :=
  ⟨inverse_involutive w, rfl⟩

/-! ### The lexicographic-by-alphabet-index comparison implemented by
`shortLexPrecedes` -/

theorem shortLexPrecedes_nil_right (l A : List ℤ) :
    shortLexPrecedes l [] A = false := by
  cases l <;> rfl

theorem shortLexPrecedes_nil_left (c : ℤ) (t A : List ℤ) :
    shortLexPrecedes [] (c :: t) A = true := rfl

theorem shortLexPrecedes_cons_cons (c0 c1 : ℤ) (t0 t1 A : List ℤ) :
    shortLexPrecedes (c0 :: t0) (c1 :: t1) A =
      if c0 ≠ c1 then decide (A.indexOf c0 < A.indexOf c1)
      else shortLexPrecedes t0 t1 A := rfl

theorem shortLexPrecedes_irrefl (l A : List ℤ) :
    shortLexPrecedes l l A = false := by
  induction l with
  | nil => rfl
  | cons c t ih => simpa [shortLexPrecedes_cons_cons] using ih

theorem shortLexPrecedes_trans {A : List ℤ} :
    ∀ {a b c : List ℤ}, shortLexPrecedes a b A = true →
      shortLexPrecedes b c A = true → shortLexPrecedes a c A = true := by
  intro a
  induction a with
  | nil =>
    intro b c hab hbc
    cases b with
    | nil => rw [shortLexPrecedes_nil_right] at hab; exact absurd hab (by simp)
    | cons hb tb =>
      cases c with
      | nil => rw [shortLexPrecedes_nil_right] at hbc; exact absurd hbc (by simp)
      | cons hc tc => rfl
  | cons ha ta ih =>
    intro b c hab hbc
    cases b with
    | nil => rw [shortLexPrecedes_nil_right] at hab; exact absurd hab (by simp)
    | cons hb tb =>
      cases c with
      | nil => rw [shortLexPrecedes_nil_right] at hbc; exact absurd hbc (by simp)
      | cons hc tc =>
        rw [shortLexPrecedes_cons_cons] at hab hbc ⊢
        by_cases h1 : ha = hb
        · subst h1
          rw [if_neg (not_not_intro rfl)] at hab
          by_cases h2 : ha = hc
          · subst h2
            rw [if_neg (not_not_intro rfl)] at hbc ⊢
            exact ih hab hbc
          · rw [if_pos h2] at hbc ⊢
            exact hbc
        · by_cases h2 : hb = hc
          · subst h2
            rw [if_pos h1] at hab ⊢
            exact hab
          · rw [if_pos h1] at hab
            rw [if_pos h2] at hbc
            have hlt : A.indexOf ha < A.indexOf hc :=
              Nat.lt_trans (of_decide_eq_true hab) (of_decide_eq_true hbc)
            have hne : ha ≠ hc := fun h => Nat.lt_irrefl _ (h ▸ hlt)
            rw [if_pos hne]
            exact decide_eq_true hlt

theorem shortLexPrecedes_asymm {A : List ℤ} :
    ∀ {a b : List ℤ}, shortLexPrecedes a b A = true →
      shortLexPrecedes b a A = false := by
  intro a
  induction a with
  | nil =>
    intro b _
    exact shortLexPrecedes_nil_right b A
  | cons ha ta ih =>
    intro b hab
    cases b with
    | nil => rw [shortLexPrecedes_nil_right] at hab; exact absurd hab (by simp)
    | cons hb tb =>
      rw [shortLexPrecedes_cons_cons] at hab ⊢
      by_cases h1 : ha = hb
      · subst h1
        rw [if_neg (not_not_intro rfl)] at hab ⊢
        exact ih hab
      · have h1' : hb ≠ ha := fun h => h1 h.symm
        rw [if_pos h1] at hab
        rw [if_pos h1']
        exact decide_eq_false
          (Nat.not_lt.mpr (Nat.le_of_lt (of_decide_eq_true hab)))

theorem shortLexPrecedes_total {A : List ℤ} :
    ∀ {a b : List ℤ}, (∀ c ∈ a, c ∈ A) → (∀ c ∈ b, c ∈ A) → a ≠ b →
      shortLexPrecedes a b A = true ∨ shortLexPrecedes b a A = true := by
  intro a
  induction a with
  | nil =>
    intro b _ _ hne
    cases b with
    | nil => exact absurd rfl hne
    | cons hb tb => exact Or.inl rfl
  | cons ha ta ih =>
    intro b hma hmb hne
    cases b with
    | nil => exact Or.inr rfl
    | cons hb tb =>
      by_cases h1 : ha = hb
      · subst h1
        have htne : ta ≠ tb := by
          intro h
          exact hne (by rw [h])
        have hta : ∀ c ∈ ta, c ∈ A := fun c hc => hma c (List.mem_cons_of_mem _ hc)
        have htb : ∀ c ∈ tb, c ∈ A := fun c hc => hmb c (List.mem_cons_of_mem _ hc)
        rcases ih hta htb htne with h | h
        · exact Or.inl (by rw [shortLexPrecedes_cons_cons, if_neg (not_not_intro rfl)]; exact h)
        · exact Or.inr (by rw [shortLexPrecedes_cons_cons, if_neg (not_not_intro rfl)]; exact h)
      · have haA : ha ∈ A := hma ha (List.mem_cons_self ha ta)
        have hbA : hb ∈ A := hmb hb (List.mem_cons_self hb tb)
        have hidx : A.indexOf ha ≠ A.indexOf hb := by
          intro h
          exact h1 ((List.indexOf_inj haA hbA).mp h)
        have h1' : hb ≠ ha := fun h => h1 h.symm
        rcases Nat.lt_or_ge (A.indexOf ha) (A.indexOf hb) with h | h
        · exact Or.inl (by simp [shortLexPrecedes_cons_cons, h1, h])
        · have : A.indexOf hb < A.indexOf ha := Nat.lt_of_le_of_ne h (fun e => hidx e.symm)
          exact Or.inr (by simp [shortLexPrecedes_cons_cons, h1', this])

/-- Claim C8: over a duplicate-free alphabet containing all letters involved,
the relation computed by `shortLexPrecedes` is a strict total order:
irreflexive, transitive, and any two distinct words are comparable in exactly
one direction. -/
theorem shortLexPrecedes_strict_total_order (A a b : List ℤ) (_hnd : A.Nodup)
    (ha : ∀ c ∈ a, c ∈ A) (hb : ∀ c ∈ b, c ∈ A) :
    shortLexPrecedes a a A = false ∧
    (∀ x y z : List ℤ, shortLexPrecedes x y A = true →
      shortLexPrecedes y z A = true → shortLexPrecedes x z A = true) ∧
    (a ≠ b →
      (shortLexPrecedes a b A = true ∧ shortLexPrecedes b a A = false) ∨
      (shortLexPrecedes b a A = true ∧ shortLexPrecedes a b A = false)) := by
  refine ⟨shortLexPrecedes_irrefl a A,
    fun x y z hxy hyz => shortLexPrecedes_trans hxy hyz, fun hne => ?_⟩
  rcases shortLexPrecedes_total ha hb hne with h | h
  · exact Or.inl ⟨h, shortLexPrecedes_asymm h⟩
  · exact Or.inr ⟨h, shortLexPrecedes_asymm h⟩

theorem shortLexPrecedes_strict_total_order_witness :
    (standardAlphabet 2).Nodup ∧
    (∀ c ∈ ([1, 2] : List ℤ), c ∈ standardAlphabet 2) ∧
    (∀ c ∈ ([1, -2] : List ℤ), c ∈ standardAlphabet 2) ∧
    (shortLexPrecedes [1, 2] [1, 2] (standardAlphabet 2) = false ∧
     (∀ x y z : List ℤ, shortLexPrecedes x y (standardAlphabet 2) = true →
       shortLexPrecedes y z (standardAlphabet 2) = true →
       shortLexPrecedes x z (standardAlphabet 2) = true) ∧
     (([1, 2] : List ℤ) ≠ [1, -2] →
       (shortLexPrecedes [1, 2] [1, -2] (standardAlphabet 2) = true ∧
        shortLexPrecedes [1, -2] [1, 2] (standardAlphabet 2) = false) ∨
       (shortLexPrecedes [1, -2] [1, 2] (standardAlphabet 2) = true ∧
        shortLexPrecedes [1, 2] [1, -2] (standardAlphabet 2) = false))) :=
  ⟨by decide, by decide, by decide,
    shortLexPrecedes_strict_total_order (standardAlphabet 2) [1, 2] [1, -2]
      (by decide) (by decide) (by decide)⟩

/-- Claim C1: the code diverges from the claimed shortlex semantics.  With the
standard 2-generator alphabet, the word `[2]` is strictly shorter than
`[1, 1]`, so under shortlex it must strictly precede it, yet the code returns
`false` on `([2], [1, 1])` and `true` on `([1, 1], [2])`: the implementation
compares the first letters lexicographically and ignores length entirely. -/
theorem shortLexPrecedes_ignores_length :
    (∀ c ∈ ([2] : List ℤ), c ∈ standardAlphabet 2) ∧
    (∀ c ∈ ([1, 1] : List ℤ), c ∈ standardAlphabet 2) ∧
    ([2] : List ℤ).length < ([1, 1] : List ℤ).length ∧
    shortLexPrecedes [2] [1, 1] (standardAlphabet 2) = false ∧
    shortLexPrecedes [1, 1] [2] (standardAlphabet 2) = true := by
  refine ⟨by decide, by decide, by decide, by decide, by decide⟩

/-! ### Odometer successor: unfolding equations and preservation lemmas -/

theorem odometerSuccessor_nil (A : List ℤ) : odometerSuccessor [] A = [] := by
  simp [odometerSuccessor]

theorem odometerSuccessor_concat (l : List ℤ) (c : ℤ) (A : List ℤ) :
    odometerSuccessor (l ++ [c]) A =
      if c ≠ A.getLastD 0 then l ++ [A.getD (A.indexOf c + 1) 0]
      else odometerSuccessor l A ++ [A.headD 0] := by
  rw [odometerSuccessor]
  simp [List.getLastD_concat, List.dropLast_concat]

theorem headD_eq_getD (w : List ℤ) : w.headD 0 = w.getD 0 0 := by
  cases w <;> rfl

theorem getLastD_eq_getD (w : List ℤ) (hw : w ≠ []) :
    w.getLastD 0 = w.getD (w.length - 1) 0 := by
  induction w using List.reverseRecOn with
  | nil => exact absurd rfl hw
  | append_singleton l c _ =>
    rw [List.getLastD_concat]
    have hlen : (l ++ [c]).length = l.length + 1 := by simp
    rw [List.getD_eq_getElem _ _ (by simp [hlen])]
    simp [hlen]

theorem headD_mem (A : List ℤ) (hA : A ≠ []) : A.headD 0 ∈ A := by
  cases A with
  | nil => exact absurd rfl hA
  | cons a t => exact List.mem_cons_self a t

theorem getD_mem (A : List ℤ) (i : ℕ) (h : i < A.length) : A.getD i 0 ∈ A := by
  rw [List.getD_eq_getElem _ _ h]
  exact List.getElem_mem h

theorem indexOf_succ_lt_length {A : List ℤ} {c : ℤ} (hA : A ≠ [])
    (hcA : c ∈ A) (hc : c ≠ A.getLastD 0) : A.indexOf c + 1 < A.length := by
  have hidx : A.indexOf c < A.length := List.indexOf_lt_length.mpr hcA
  rcases Nat.lt_or_ge (A.indexOf c + 1) A.length with h' | h'
  · exact h'
  · exfalso
    apply hc
    have hlen : A.indexOf c = A.length - 1 := by omega
    have hg : A.getD (A.indexOf c) 0 = c := by
      rw [List.getD_eq_getElem _ _ hidx]
      exact List.getElem_indexOf hidx
    rw [getLastD_eq_getD A hA, ← hlen, hg]

theorem odometerSuccessor_length_mem (A : List ℤ) (hA : A ≠ []) :
    ∀ l : List ℤ, (∀ c ∈ l, c ∈ A) →
      (odometerSuccessor l A).length = l.length ∧
        ∀ c ∈ odometerSuccessor l A, c ∈ A := by
  intro l
  induction l using List.reverseRecOn with
  | nil =>
    intro _
    simp [odometerSuccessor_nil]
  | append_singleton l c ih =>
    intro hm
    rw [odometerSuccessor_concat]
    by_cases hc : c = A.getLastD 0
    · rw [if_neg (not_not_intro hc)]
      have hml : ∀ x ∈ l, x ∈ A := fun x hx => hm x (List.mem_append_left _ hx)
      obtain ⟨hlen, hmem⟩ := ih hml
      refine ⟨by simp [hlen], ?_⟩
      intro x hx
      rcases List.mem_append.mp hx with h | h
      · exact hmem x h
      · rcases List.mem_singleton.mp h with rfl
        exact headD_mem A hA
    · rw [if_pos hc]
      refine ⟨by simp, ?_⟩
      intro x hx
      rcases List.mem_append.mp hx with h | h
      · exact hm x (List.mem_append_left _ h)
      · rcases List.mem_singleton.mp h with rfl
        have hcA : c ∈ A := hm c (List.mem_append_right _ (List.mem_singleton_self c))
        exact getD_mem A _ (indexOf_succ_lt_length hA hcA hc)

/-- Claim C10: over a non-empty duplicate-free alphabet, `odometerSuccessor`
preserves the length of the word and keeps every letter inside the alphabet;
the empty word is a fixed point. -/
theorem odometerSuccessor_preserves (A w : List ℤ) (hA : A ≠ []) (_hnd : A.Nodup)
    (hw : ∀ c ∈ w, c ∈ A) :
    (odometerSuccessor w A).length = w.length ∧
    (∀ c ∈ odometerSuccessor w A, c ∈ A) ∧
    odometerSuccessor ([] : List ℤ) A = [] := by
  obtain ⟨h1, h2⟩ := odometerSuccessor_length_mem A hA w hw
  exact ⟨h1, h2, odometerSuccessor_nil A⟩

theorem odometerSuccessor_preserves_witness :
    ([1, -1] : List ℤ) ≠ [] ∧ ([1, -1] : List ℤ).Nodup ∧
    (∀ c ∈ ([1, 1] : List ℤ), c ∈ ([1, -1] : List ℤ)) ∧
    ((odometerSuccessor [1, 1] [1, -1]).length = ([1, 1] : List ℤ).length ∧
     (∀ c ∈ odometerSuccessor [1, 1] [1, -1], c ∈ ([1, -1] : List ℤ)) ∧
     odometerSuccessor ([] : List ℤ) [1, -1] = []) :=
  ⟨by decide, by decide, by decide,
    odometerSuccessor_preserves [1, -1] [1, 1] (by decide) (by decide) (by decide)⟩

/-- Claim C2: the code diverges from the claim.  Iterating `shortLexSuccessor`
over the alphabet `[1, -1]` from the empty word yields `[], [1], [-1], [1, 1],
...`, but the iterate `[-1]` does NOT satisfy `shortLexPrecedes` against its
own successor `[1, 1]`: the comparison returns `false` although `[-1]` is
strictly shorter, because `shortLexPrecedes` ignores length (see claim C1). -/
theorem shortLexSuccessor_iterate_not_increasing :
    shortLexSuccessor [] [1, -1] = [1] ∧
    shortLexSuccessor [1] [1, -1] = [-1] ∧
    shortLexSuccessor [-1] [1, -1] = [1, 1] ∧
    shortLexPrecedes [-1] [1, 1] [1, -1] = false ∧
    ([-1] : List ℤ).length < ([1, 1] : List ℤ).length := by
  refine ⟨?_, ?_, ?_, by decide, by decide⟩ <;> simp [shortLexSuccessor, odometerSuccessor]

/-! ### Cyclic reducedness -/

theorem isCyclicallyReduced_eq_true_iff (w : List ℤ) :
    isCyclicallyReduced w = true ↔
      ∀ i < w.length, ¬ w.getD ((i + w.length - 1) % w.length) 0 = -w.getD i 0 := by
  simp [isCyclicallyReduced, List.all_eq_true, List.mem_range]

/-- Claim C7: `isCyclicallyReduced(w)` holds exactly when no cyclically
adjacent pair of letters cancels: no linear pair `w[i], w[i+1]` with
`w[i] = -w[i+1]`, and no wrap-around pair (last letter against first).  In
particular the empty word and any single-letter word (a word's letters are
nonzero generator ids) are cyclically reduced, and a word with a linear
cancelling pair never is. -/
theorem isCyclicallyReduced_characterization (w : List ℤ) (a : ℤ) :
    (isCyclicallyReduced w = true ↔
      (∀ i, i + 1 < w.length → ¬ w.getD i 0 = -w.getD (i + 1) 0) ∧
      (w ≠ [] → ¬ w.getLastD 0 = -w.headD 0)) ∧
    isCyclicallyReduced ([] : List ℤ) = true ∧
    (a ≠ 0 → isCyclicallyReduced [a] = true) ∧
    (∀ i, i + 1 < w.length → w.getD i 0 = -w.getD (i + 1) 0 →
      isCyclicallyReduced w = false) := by
  have hiff : isCyclicallyReduced w = true ↔
      (∀ i, i + 1 < w.length → ¬ w.getD i 0 = -w.getD (i + 1) 0) ∧
      (w ≠ [] → ¬ w.getLastD 0 = -w.headD 0) := by
    rw [isCyclicallyReduced_eq_true_iff]
    rcases eq_or_ne w [] with rfl | hw
    · simp
    · have hlen : 0 < w.length := List.length_pos.mpr hw
      constructor
      · intro h
        constructor
        · intro i hi
          have := h (i + 1) hi
          rwa [show (i + 1 + w.length - 1) % w.length = i by
            have : i + 1 + w.length - 1 = i + w.length := by omega
            rw [this, Nat.add_mod_right, Nat.mod_eq_of_lt (by omega)]] at this
        · intro _
          have := h 0 hlen
          rwa [show (0 + w.length - 1) % w.length = w.length - 1 by
            rw [Nat.zero_add, Nat.mod_eq_of_lt (by omega)],
            ← getLastD_eq_getD w hw, ← headD_eq_getD] at this
      · rintro ⟨hlin, hwrap⟩ i hi
        rcases Nat.eq_zero_or_pos i with rfl | hipos
        · rw [show (0 + w.length - 1) % w.length = w.length - 1 by
            rw [Nat.zero_add, Nat.mod_eq_of_lt (by omega)],
            ← getLastD_eq_getD w hw, ← headD_eq_getD]
          exact hwrap hw
        · obtain ⟨j, rfl⟩ : ∃ j, i = j + 1 := ⟨i - 1, by omega⟩
          rw [show (j + 1 + w.length - 1) % w.length = j by
            have : j + 1 + w.length - 1 = j + w.length := by omega
            rw [this, Nat.add_mod_right, Nat.mod_eq_of_lt (by omega)]]
          exact hlin j hi
  refine ⟨hiff, by decide, ?_, ?_⟩
  · intro ha
    simp only [isCyclicallyReduced, List.length_cons, List.length_nil]
    simp
    omega
  · intro i hi hpair
    rcases Bool.eq_false_or_eq_true (isCyclicallyReduced w) with h | h
    · exact absurd hpair ((hiff.mp h).1 i hi)
    · exact h

theorem isCyclicallyReduced_characterization_witness :
    isCyclicallyReduced [(1 : ℤ)] = true ∧ isCyclicallyReduced [1, -1] = false :=
  ⟨(isCyclicallyReduced_characterization [1, -1] 1).2.2.1 (by decide),
   (isCyclicallyReduced_characterization [1, -1] 1).2.2.2 0 (by decide) (by decide)⟩

/-! ### Structure of `cyclicShifts`: the emitted shifts are exactly the first
`minPeriod` rotations -/

theorem cyclicShiftLeft_zero (l : List ℤ) : cyclicShiftLeft l 0 = l := by
  simp [cyclicShiftLeft]

theorem cyclicShiftLeft_of_length_le (l : List ℤ) {n : ℕ} (h : l.length ≤ n) :
    cyclicShiftLeft l n = l := by
  simp [cyclicShiftLeft, List.drop_eq_nil_of_le h, List.take_of_length_le h]

theorem cyclicShiftLeft_eq_rotate {l : List ℤ} {n : ℕ} (h : n ≤ l.length) :
    cyclicShiftLeft l n = l.rotate n :=
  (List.rotate_eq_drop_append_take h).symm

theorem exists_pos_shift (l : List ℤ) : ∃ k, 0 < k ∧ cyclicShiftLeft l k = l :=
  ⟨l.length + 1, Nat.succ_pos _, cyclicShiftLeft_of_length_le l (Nat.le_succ _)⟩

/-- The least positive rotation amount fixing `l` (its cyclic period; `l.length`
when `l` has no nontrivial rotational symmetry). -/
def minPeriod (l : List ℤ) : ℕ :=
  Nat.find (exists_pos_shift l)

theorem minPeriod_pos (l : List ℤ) : 0 < minPeriod l :=
  (Nat.find_spec (exists_pos_shift l)).1

theorem cyclicShiftLeft_minPeriod (l : List ℤ) :
    cyclicShiftLeft l (minPeriod l) = l :=
  (Nat.find_spec (exists_pos_shift l)).2

theorem minPeriod_min (l : List ℤ) (k : ℕ) (hk : 0 < k) (hlt : k < minPeriod l) :
    cyclicShiftLeft l k ≠ l :=
  fun h => Nat.find_min (exists_pos_shift l) hlt ⟨hk, h⟩

theorem minPeriod_le_length {l : List ℤ} (hl : l ≠ []) :
    minPeriod l ≤ l.length :=
  Nat.find_min' (exists_pos_shift l)
    ⟨List.length_pos.mpr hl, by simp [cyclicShiftLeft]⟩

theorem minPeriod_nil : minPeriod ([] : List ℤ) = 1 := by
  have h1 : minPeriod ([] : List ℤ) ≤ 1 :=
    Nat.find_min' _ ⟨Nat.one_pos, by simp [cyclicShiftLeft]⟩
  have h2 := minPeriod_pos ([] : List ℤ)
  omega

theorem rotate_minPeriod {l : List ℤ} (hl : l ≠ []) :
    l.rotate (minPeriod l) = l := by
  rw [← cyclicShiftLeft_eq_rotate (minPeriod_le_length hl)]
  exact cyclicShiftLeft_minPeriod l

theorem rotate_mul_minPeriod {l : List ℤ} (hl : l ≠ []) (q : ℕ) :
    l.rotate (q * minPeriod l) = l := by
  induction q with
  | zero => simp
  | succ q ih =>
    rw [Nat.succ_mul, ← List.rotate_rotate, ih, rotate_minPeriod hl]

theorem rotate_mod_minPeriod {l : List ℤ} (hl : l ≠ []) (i : ℕ) :
    l.rotate (i % minPeriod l) = l.rotate i := by
  conv_rhs => rw [← Nat.div_add_mod i (minPeriod l)]
  rw [show minPeriod l * (i / minPeriod l) + i % minPeriod l =
        (i / minPeriod l) * minPeriod l + i % minPeriod l by ring,
      ← List.rotate_rotate, rotate_mul_minPeriod hl]

theorem takeWhile_range'_eq (q : ℕ → Bool) :
    ∀ (n a P : ℕ), a ≤ P → P ≤ a + n →
      (∀ i, a ≤ i → i < P → q i = true) →
      (P < a + n → q P = false) →
      (List.range' a n).takeWhile q = List.range' a (P - a) := by
  intro n
  induction n with
  | zero =>
    intro a P h1 h2 _ _
    have hPa : P = a := Nat.le_antisymm (by omega) h1
    simp [hPa]
  | succ n ih =>
    intro a P h1 h2 hq hP
    rw [List.range'_succ, List.takeWhile_cons]
    rcases eq_or_lt_of_le h1 with rfl | hlt
    · rw [hP (by omega)]
      simp
    · rw [hq a le_rfl hlt]
      rw [if_pos (by trivial)]
      rw [ih (a + 1) P hlt (by omega) (fun i h1' h2' => hq i (by omega) h2')
        (fun h => hP (by omega))]
      have hPa : P - a = (P - (a + 1)) + 1 := by omega
      rw [hPa, List.range'_succ]

theorem cyclicShifts_eq_map (l : List ℤ) :
    cyclicShifts l = (List.range (minPeriod l)).map (fun i => cyclicShiftLeft l i) := by
  rcases eq_or_ne l [] with rfl | hl
  · rw [minPeriod_nil]
    simp [cyclicShifts, cyclicShiftLeft]
  · have hlen : 0 < l.length := List.length_pos.mpr hl
    have hple := minPeriod_le_length hl
    have hppos := minPeriod_pos l
    rw [cyclicShifts,
      takeWhile_range'_eq _ (l.length - 1) 1 (minPeriod l) hppos (by omega)
        (fun i hi1 hi2 => decide_eq_true (minPeriod_min l i hi1 hi2))
        (fun _ => decide_eq_false (not_not_intro (cyclicShiftLeft_minPeriod l)))]
    have hp1 : minPeriod l = (minPeriod l - 1) + 1 := by omega
    rw [List.range_eq_range', hp1, List.range'_succ]
    simp [cyclicShiftLeft_zero]

theorem length_cyclicShifts (l : List ℤ) :
    (cyclicShifts l).length = minPeriod l := by
  rw [cyclicShifts_eq_map]
  simp

theorem cyclicShiftLeft_ne_of_lt (l : List ℤ) (hl : l ≠ []) :
    ∀ i j, i < j → j < minPeriod l →
      cyclicShiftLeft l i ≠ cyclicShiftLeft l j := by
  intro i j hij hj heq
  have hlen := List.length_pos.mpr hl
  have hple := minPeriod_le_length hl
  rw [cyclicShiftLeft_eq_rotate (by omega : i ≤ l.length),
    cyclicShiftLeft_eq_rotate (by omega : j ≤ l.length)] at heq
  have h1 : l.rotate (i + (l.length - i)) = l.rotate (j + (l.length - i)) := by
    rw [← List.rotate_rotate, ← List.rotate_rotate, heq]
  rw [show i + (l.length - i) = l.length by omega, List.rotate_length,
    show j + (l.length - i) = (j - i) + l.length by omega,
    ← List.rotate_rotate,
    show l.length = (l.rotate (j - i)).length from (List.length_rotate l (j - i)).symm,
    List.rotate_length] at h1
  exact minPeriod_min l (j - i) (by omega) (by omega)
    (by rw [cyclicShiftLeft_eq_rotate (by omega : j - i ≤ l.length)]; exact h1.symm)

theorem cyclicShifts_nodup (l : List ℤ) : (cyclicShifts l).Nodup := by
  rw [cyclicShifts_eq_map]
  refine List.Nodup.map_on ?_ (List.nodup_range _)
  intro i hi j hj hij
  simp only [List.mem_range] at hi hj
  rcases eq_or_ne l [] with rfl | hl
  · rw [minPeriod_nil] at hi hj
    omega
  · rcases lt_trichotomy i j with h | h | h
    · exact absurd hij (cyclicShiftLeft_ne_of_lt l hl i j h hj)
    · exact h
    · exact absurd hij.symm (cyclicShiftLeft_ne_of_lt l hl j i h hi)

theorem mem_cyclicShifts_iff {l v : List ℤ} :
    v ∈ cyclicShifts l ↔ ∃ i, l.rotate i = v := by
  rw [cyclicShifts_eq_map]
  simp only [List.mem_map, List.mem_range]
  constructor
  · rintro ⟨i, hi, rfl⟩
    rcases eq_or_ne l [] with rfl | hl
    · exact ⟨0, by simp [cyclicShiftLeft]⟩
    · exact ⟨i, (cyclicShiftLeft_eq_rotate
        (le_trans (Nat.le_of_lt hi) (minPeriod_le_length hl))).symm⟩
  · rintro ⟨i, rfl⟩
    rcases eq_or_ne l [] with rfl | hl
    · exact ⟨0, minPeriod_pos _, by simp [cyclicShiftLeft]⟩
    · refine ⟨i % minPeriod l, Nat.mod_lt _ (minPeriod_pos l), ?_⟩
      rw [cyclicShiftLeft_eq_rotate
        (le_trans (Nat.le_of_lt (Nat.mod_lt _ (minPeriod_pos l))) (minPeriod_le_length hl))]
      exact rotate_mod_minPeriod hl i

theorem mem_cyclicShifts_iff_isRotated {l v : List ℤ} :
    v ∈ cyclicShifts l ↔ l ~r v :=
  mem_cyclicShifts_iff

theorem minPeriod_dvd_length {l : List ℤ} (hl : l ≠ []) :
    minPeriod l ∣ l.length := by
  set p := minPeriod l with hp
  have hr : l.rotate (l.length % p) = l := by
    have h0 : l.rotate l.length = l := List.rotate_length l
    conv_lhs at h0 => rw [← Nat.div_add_mod l.length p]
    rwa [show p * (l.length / p) + l.length % p =
        (l.length / p) * p + l.length % p by ring, ← List.rotate_rotate,
      rotate_mul_minPeriod hl] at h0
  rcases Nat.eq_zero_or_pos (l.length % p) with h | h
  · exact Nat.dvd_of_mod_eq_zero h
  · exfalso
    have hlt : l.length % p < p := Nat.mod_lt _ (minPeriod_pos l)
    have hle : l.length % p ≤ l.length := le_trans (le_of_lt hlt) (minPeriod_le_length hl)
    exact minPeriod_min l (l.length % p) h hlt
      (by rw [cyclicShiftLeft_eq_rotate hle]; exact hr)

/-- Claim C6: for non-empty `w`, `cyclicShifts(w)` is a duplicate-free list of
left-rotations of `w` starting with `w` itself; its length divides `len(w)`,
and equals `len(w)` when no nontrivial rotation of `w` reproduces `w`. -/
theorem cyclicShifts_structure (w : List ℤ) (hw : w ≠ []) :
    (cyclicShifts w).Nodup ∧
    (cyclicShifts w).head? = some w ∧
    (∀ v ∈ cyclicShifts w, ∃ i, i < w.length ∧ v = cyclicShiftLeft w i) ∧
    (cyclicShifts w).length ∣ w.length ∧
    ((∀ i, 0 < i → i < w.length → cyclicShiftLeft w i ≠ w) →
      (cyclicShifts w).length = w.length) := by
  refine ⟨cyclicShifts_nodup w, by rw [cyclicShifts]; rfl, ?_, ?_, ?_⟩
  · intro v hv
    rw [cyclicShifts_eq_map] at hv
    simp only [List.mem_map, List.mem_range] at hv
    obtain ⟨i, hi, rfl⟩ := hv
    exact ⟨i, lt_of_lt_of_le hi (minPeriod_le_length hw), rfl⟩
  · rw [length_cyclicShifts]
    exact minPeriod_dvd_length hw
  · intro hnone
    rw [length_cyclicShifts]
    have hple := minPeriod_le_length hw
    rcases eq_or_lt_of_le hple with h | h
    · exact h
    · exact absurd (cyclicShiftLeft_minPeriod w)
        (hnone (minPeriod w) (minPeriod_pos w) h)

theorem cyclicShifts_structure_witness :
    ([1, 2] : List ℤ) ≠ [] ∧
    ((cyclicShifts [1, 2]).Nodup ∧
     (cyclicShifts [1, 2]).head? = some [1, 2] ∧
     (∀ v ∈ cyclicShifts [1, 2], ∃ i, i < ([1, 2] : List ℤ).length ∧
        v = cyclicShiftLeft [1, 2] i) ∧
     (cyclicShifts [1, 2]).length ∣ ([1, 2] : List ℤ).length ∧
     ((∀ i, 0 < i → i < ([1, 2] : List ℤ).length → cyclicShiftLeft [1, 2] i ≠ [1, 2]) →
       (cyclicShifts [1, 2]).length = ([1, 2] : List ℤ).length)) :=
  ⟨by decide, cyclicShifts_structure [1, 2] (by decide)⟩

/-! ### The cyclic-inverse equivalence class and claim C5 -/

theorem inverse_rotate (a : List ℤ) {n : ℕ} (hn : n ≤ a.length) :
    inverse (a.rotate n) = (inverse a).rotate (a.length - n) := by
  rw [List.rotate_eq_drop_append_take hn, inverse_append]
  rw [List.rotate_eq_drop_append_take
    (show a.length - n ≤ (inverse a).length by rw [length_inverse]; omega)]
  have hsplit : inverse a = inverse (a.drop n) ++ inverse (a.take n) := by
    conv_lhs => rw [← List.take_append_drop n a]
    rw [inverse_append]
  rw [hsplit]
  have hlen : (inverse (a.drop n)).length = a.length - n := by
    rw [length_inverse, List.length_drop]
  rw [← hlen, List.drop_left, List.take_left]

theorem isRotated_inverse {a b : List ℤ} (h : a ~r b) :
    inverse a ~r inverse b := by
  obtain ⟨n, rfl⟩ := h
  rcases eq_or_ne a [] with rfl | ha
  · rw [List.rotate_nil]
  · have hlen : 0 < a.length := List.length_pos.mpr ha
    have hn' : n % a.length ≤ a.length := le_of_lt (Nat.mod_lt _ hlen)
    rw [← List.rotate_mod, inverse_rotate a hn']
    exact ⟨a.length - n % a.length, rfl⟩

/-- The cyclic-inverse equivalence relation: `u` is a rotation of `v` or the
inverse of a rotation of `v`. -/
def cirel (v u : List ℤ) : Prop :=
  v ~r u ∨ v ~r inverse u

theorem cirel_refl (v : List ℤ) : cirel v v :=
  Or.inl (List.IsRotated.refl v)

theorem cirel_symm {v u : List ℤ} (h : cirel v u) : cirel u v := by
  rcases h with h | h
  · exact Or.inl h.symm
  · right
    have h2 : inverse v ~r inverse (inverse u) := isRotated_inverse h
    rw [inverse_involutive] at h2
    exact h2.symm

theorem cirel_trans {v u t : List ℤ} (h1 : cirel v u) (h2 : cirel u t) :
    cirel v t := by
  rcases h1 with h1 | h1 <;> rcases h2 with h2 | h2
  · exact Or.inl (h1.trans h2)
  · exact Or.inr (h1.trans h2)
  · exact Or.inr (h1.trans (isRotated_inverse h2))
  · left
    have h3 := isRotated_inverse h2
    rw [inverse_involutive] at h3
    exact h1.trans h3

theorem mem_inverseCyclicShifts_iff {l u : List ℤ} :
    u ∈ inverseCyclicShifts l ↔ cirel l u := by
  rw [inverseCyclicShifts]
  simp only [List.mem_flatMap]
  constructor
  · rintro ⟨s, hs, hu⟩
    have hrot : l ~r s := mem_cyclicShifts_iff_isRotated.mp hs
    simp only [List.mem_cons, List.not_mem_nil, or_false] at hu
    rcases hu with rfl | rfl
    · exact Or.inl hrot
    · right
      rwa [inverse_involutive]
  · intro h
    rcases h with h | h
    · exact ⟨u, mem_cyclicShifts_iff_isRotated.mpr h, by simp⟩
    · exact ⟨inverse u, mem_cyclicShifts_iff_isRotated.mpr h, by simp [inverse_involutive]⟩

theorem inverseCyclicShifts_mem_trans {w v u : List ℤ}
    (hv : v ∈ inverseCyclicShifts w) (hu : u ∈ inverseCyclicShifts v) :
    u ∈ inverseCyclicShifts w :=
  mem_inverseCyclicShifts_iff.mpr
    (cirel_trans (mem_inverseCyclicShifts_iff.mp hv)
      (mem_inverseCyclicShifts_iff.mp hu))

theorem letters_of_cirel {w u A : List ℤ} (h : cirel w u)
    (hw : ∀ c ∈ w, c ∈ A ∧ -c ∈ A) : ∀ c ∈ u, c ∈ A ∧ -c ∈ A := by
  rcases h with h | h
  · intro c hc
    exact hw c (h.perm.mem_iff.mpr hc)
  · intro c hc
    have hinv : -c ∈ inverse u := by
      rw [mem_inverse_iff]
      simpa using hc
    obtain ⟨h1, h2⟩ := hw _ (h.perm.mem_iff.mpr hinv)
    exact ⟨by simpa using h2, h1⟩

theorem exists_min_shortLex (A : List ℤ) :
    ∀ L : List (List ℤ), L ≠ [] →
      ∃ v ∈ L, ∀ u ∈ L, shortLexPrecedes u v A = false := by
  intro L
  induction L with
  | nil => intro h; exact absurd rfl h
  | cons a L ih =>
    intro _
    rcases eq_or_ne L [] with rfl | hL
    · refine ⟨a, List.mem_cons_self a [], fun u hu => ?_⟩
      rcases List.mem_singleton.mp hu with rfl
      exact shortLexPrecedes_irrefl u A
    · obtain ⟨m, hmL, hmin⟩ := ih hL
      rcases Bool.eq_false_or_eq_true (shortLexPrecedes a m A) with ham | ham
      · refine ⟨a, List.mem_cons_self a L, fun u hu => ?_⟩
        rcases List.mem_cons.mp hu with rfl | hu
        · exact shortLexPrecedes_irrefl u A
        · rcases Bool.eq_false_or_eq_true (shortLexPrecedes u a A) with h | h
          · have := shortLexPrecedes_trans h ham
            rw [hmin u hu] at this
            exact absurd this (by simp)
          · exact h
      · refine ⟨m, List.mem_cons_of_mem a hmL, fun u hu => ?_⟩
        rcases List.mem_cons.mp hu with rfl | hu
        · exact ham
        · exact hmin u hu

theorem exists_unique_minimal_rep (A w : List ℤ) (_hnd : A.Nodup)
    (hw : ∀ c ∈ w, c ∈ A ∧ -c ∈ A) :
    ∃! v, v ∈ inverseCyclicShifts w ∧ isCyclicInverselyMinimal v A = true := by
  have hwmem : w ∈ inverseCyclicShifts w :=
    mem_inverseCyclicShifts_iff.mpr (cirel_refl w)
  have hne : inverseCyclicShifts w ≠ [] := by
    intro h
    rw [h] at hwmem
    exact absurd hwmem (List.not_mem_nil w)
  obtain ⟨v, hvmem, hvmin⟩ := exists_min_shortLex A _ hne
  have hvcirel : cirel w v := mem_inverseCyclicShifts_iff.mp hvmem
  have hvletters := letters_of_cirel hvcirel hw
  have hvMinimal : isCyclicInverselyMinimal v A = true := by
    rw [isCyclicInverselyMinimal, List.all_eq_true]
    intro u hu
    rw [hvmin u (inverseCyclicShifts_mem_trans hvmem hu)]
    rfl
  refine ⟨v, ⟨hvmem, hvMinimal⟩, ?_⟩
  rintro v2 ⟨hv2mem, hv2min⟩
  have hv2cirel : cirel w v2 := mem_inverseCyclicShifts_iff.mp hv2mem
  have hv2letters := letters_of_cirel hv2cirel hw
  by_contra hne2
  have hvA : ∀ c ∈ v, c ∈ A := fun c hc => (hvletters c hc).1
  have hv2A : ∀ c ∈ v2, c ∈ A := fun c hc => (hv2letters c hc).1
  rcases shortLexPrecedes_total hv2A hvA hne2 with h | h
  · rw [hvmin v2 hv2mem] at h
    exact absurd h (by simp)
  · have hvin2 : v ∈ inverseCyclicShifts v2 :=
      mem_inverseCyclicShifts_iff.mpr
        (cirel_trans (cirel_symm hv2cirel) hvcirel)
    rw [isCyclicInverselyMinimal, List.all_eq_true] at hv2min
    have := hv2min v hvin2
    rw [h] at this
    exact absurd this (by simp)

/-- Claim C5: for every word of length at most 6 over the symmetrized
2-generator alphabet, exactly one member of its list of cyclic shifts and
inverted cyclic shifts passes `isCyclicInverselyMinimal`: the canonical
representative of its cyclic-inverse equivalence class is unique.  (Proved
from the general statement over any duplicate-free negation-closed alphabet;
the length bound is not needed.) -/
theorem inverseCyclicShifts_unique_minimal (w : List ℤ)
    (_hlen : w.length ≤ 6) (hw : ∀ c ∈ w, c ∈ standardAlphabet 2) :
    ∃! v, v ∈ inverseCyclicShifts w ∧
      isCyclicInverselyMinimal v (standardAlphabet 2) = true := by
  apply exists_unique_minimal_rep _ w (by decide)
  intro c hc
  have hcmem := hw c hc
  fin_cases hcmem <;> exact ⟨by decide, by decide⟩

theorem inverseCyclicShifts_unique_minimal_witness :
    ([1, 2] : List ℤ).length ≤ 6 ∧
    (∀ c ∈ ([1, 2] : List ℤ), c ∈ standardAlphabet 2) ∧
    (∃! v, v ∈ inverseCyclicShifts [1, 2] ∧
      isCyclicInverselyMinimal v (standardAlphabet 2) = true) :=
  ⟨by decide, by decide,
    inverseCyclicShifts_unique_minimal [1, 2] (by decide) (by decide)⟩

/-! ### The odometer as a mixed-radix counter: digit valuation for claim C3 -/

/-- Little-endian increment on a list of base-`m` digits: the digit model of
`odometerSuccessor` acting on the reversed index sequence of the word. -/
def incr (m : ℕ) : List ℕ → List ℕ
  | [] => []
  | d :: rest => if d + 1 < m then (d + 1) :: rest else 0 :: incr m rest

/-- The little-endian digit sequence of a word: alphabet indexes of its
letters, least significant (last letter) first. -/
def digitsRev (A : List ℤ) (l : List ℤ) : List ℕ :=
  (l.map (fun c => A.indexOf c)).reverse

/-- Value of a little-endian base-`m` digit list. -/
def lval (m : ℕ) : List ℕ → ℕ
  | [] => 0
  | d :: rest => d + m * lval m rest

theorem digitsRev_concat (A : List ℤ) (l : List ℤ) (c : ℤ) :
    digitsRev A (l ++ [c]) = A.indexOf c :: digitsRev A l := by
  simp [digitsRev]

theorem length_digitsRev (A l : List ℤ) : (digitsRev A l).length = l.length := by
  simp [digitsRev]

theorem digitsRev_lt {A w : List ℤ} (hw : ∀ c ∈ w, c ∈ A) :
    ∀ d ∈ digitsRev A w, d < A.length := by
  intro d hd
  simp only [digitsRev, List.mem_reverse, List.mem_map] at hd
  obtain ⟨c, hc, rfl⟩ := hd
  exact List.indexOf_lt_length.mpr (hw c hc)

theorem headD_indexOf (A : List ℤ) (hA : A ≠ []) :
    A.indexOf (A.headD 0) = 0 := by
  cases A with
  | nil => exact absurd rfl hA
  | cons a t => simp

theorem indexOf_getLastD (A : List ℤ) (hA : A ≠ []) (hnd : A.Nodup) :
    A.indexOf (A.getLastD 0) = A.length - 1 := by
  have hlen : 0 < A.length := List.length_pos.mpr hA
  rw [getLastD_eq_getD A hA, List.getD_eq_getElem _ _ (by omega)]
  exact List.indexOf_getElem hnd _ (by omega)

theorem digitsRev_odometer (A : List ℤ) (hA : A ≠ []) (hnd : A.Nodup) :
    ∀ l : List ℤ, (∀ c ∈ l, c ∈ A) →
      digitsRev A (odometerSuccessor l A) = incr A.length (digitsRev A l) := by
  intro l
  induction l using List.reverseRecOn with
  | nil =>
    intro _
    simp [odometerSuccessor_nil, digitsRev, incr]
  | append_singleton l c ih =>
    intro hm
    have hcA : c ∈ A := hm c (by simp)
    have hml : ∀ x ∈ l, x ∈ A := fun x hx => hm x (by simp [hx])
    have hlen : 0 < A.length := List.length_pos.mpr hA
    rw [odometerSuccessor_concat, digitsRev_concat]
    by_cases hc : c = A.getLastD 0
    · rw [if_neg (not_not_intro hc)]
      rw [digitsRev_concat, ih hml, headD_indexOf A hA]
      have hidx : A.indexOf c = A.length - 1 := by
        rw [hc]
        exact indexOf_getLastD A hA hnd
      simp only [incr, hidx]
      rw [if_neg (by omega)]
    · rw [if_pos hc, digitsRev_concat]
      have hsucc : A.indexOf c + 1 < A.length := indexOf_succ_lt_length hA hcA hc
      have hnext : A.indexOf (A.getD (A.indexOf c + 1) 0) = A.indexOf c + 1 := by
        rw [List.getD_eq_getElem _ _ hsucc]
        exact List.indexOf_getElem hnd _ hsucc
      rw [hnext]
      simp only [incr]
      rw [if_pos hsucc]

theorem lval_lt (m : ℕ) :
    ∀ dl : List ℕ, (∀ d ∈ dl, d < m) → lval m dl < m ^ dl.length := by
  intro dl
  induction dl with
  | nil => intro _; simp [lval]
  | cons d rest ih =>
    intro h
    have hd : d < m := h d (by simp)
    have hr := ih (fun x hx => h x (by simp [hx]))
    simp only [lval, List.length_cons]
    rw [pow_succ]
    have h2 : m * (lval m rest + 1) ≤ m * m ^ rest.length :=
      Nat.mul_le_mul_left m hr
    have h3 : m * lval m rest + m = m * (lval m rest + 1) := by ring
    have h4 : m * m ^ rest.length = m ^ rest.length * m := Nat.mul_comm _ _
    omega

theorem lval_incr (m : ℕ) (hm : 0 < m) :
    ∀ dl : List ℕ, (∀ d ∈ dl, d < m) →
      lval m (incr m dl) = (lval m dl + 1) % m ^ dl.length := by
  intro dl
  induction dl with
  | nil =>
    intro _
    simp [incr, lval]
  | cons d rest ih =>
    intro h
    have hd : d < m := h d (by simp)
    have hrest : ∀ x ∈ rest, x < m := fun x hx => h x (by simp [hx])
    by_cases hlt : d + 1 < m
    · simp only [incr, if_pos hlt, lval, List.length_cons]
      have hr := lval_lt m rest hrest
      have hb : d + m * lval m rest + 1 < m ^ rest.length * m := by
        have h2 : m * (lval m rest + 1) ≤ m * m ^ rest.length :=
          Nat.mul_le_mul_left m hr
        have h3 : m * lval m rest + m = m * (lval m rest + 1) := by ring
        have h4 : m * m ^ rest.length = m ^ rest.length * m := Nat.mul_comm _ _
        omega
      rw [pow_succ, Nat.mod_eq_of_lt hb]
      omega
    · simp only [incr, if_neg hlt, lval, List.length_cons]
      rw [ih hrest]
      have he : d + m * lval m rest + 1 = m * (lval m rest + 1) := by
        have hd1 : d + 1 = m := by omega
        rw [← hd1]
        ring
      rw [he, pow_succ, show m ^ rest.length * m = m * m ^ rest.length from
        Nat.mul_comm _ _, Nat.mul_mod_mul_left]
      omega

theorem lval_inj (m : ℕ) (hm : 0 < m) :
    ∀ d1 d2 : List ℕ, d1.length = d2.length → (∀ d ∈ d1, d < m) →
      (∀ d ∈ d2, d < m) → lval m d1 = lval m d2 → d1 = d2 := by
  intro d1
  induction d1 with
  | nil =>
    intro d2 hlen _ _ _
    cases d2 with
    | nil => rfl
    | cons b s => simp at hlen
  | cons a t ih =>
    intro d2 hlen h1 h2 hv
    cases d2 with
    | nil => simp at hlen
    | cons b s =>
      simp only [lval] at hv
      have ha : a < m := h1 a (by simp)
      have hb : b < m := h2 b (by simp)
      have hab : a = b := by
        have h3 : (a + m * lval m t) % m = (b + m * lval m s) % m := by rw [hv]
        rwa [Nat.add_mul_mod_self_left, Nat.add_mul_mod_self_left,
          Nat.mod_eq_of_lt ha, Nat.mod_eq_of_lt hb] at h3
      subst hab
      have h4 : m * lval m t = m * lval m s := by omega
      have hts : lval m t = lval m s := Nat.eq_of_mul_eq_mul_left hm h4
      rw [ih s (by simpa using hlen) (fun d hd => h1 d (by simp [hd]))
        (fun d hd => h2 d (by simp [hd])) hts]

theorem eq_of_map_indexOf_eq {A : List ℤ} :
    ∀ {w1 w2 : List ℤ}, (∀ c ∈ w1, c ∈ A) → (∀ c ∈ w2, c ∈ A) →
      w1.map (fun c => A.indexOf c) = w2.map (fun c => A.indexOf c) → w1 = w2 := by
  intro w1
  induction w1 with
  | nil =>
    intro w2 _ _ h
    cases w2 with
    | nil => rfl
    | cons c2 t2 => simp at h
  | cons c1 t1 ih =>
    intro w2 h1 h2 h
    cases w2 with
    | nil => simp at h
    | cons c2 t2 =>
      simp only [List.map_cons, List.cons.injEq] at h
      have hc : c1 = c2 :=
        (List.indexOf_inj (h1 c1 (by simp)) (h2 c2 (by simp))).mp h.1
      rw [hc, ih (fun x hx => h1 x (by simp [hx]))
        (fun x hx => h2 x (by simp [hx])) h.2]

theorem words_eq_of_lval_eq {A : List ℤ} (hm : 0 < A.length)
    {w1 w2 : List ℤ} (h1 : ∀ c ∈ w1, c ∈ A) (h2 : ∀ c ∈ w2, c ∈ A)
    (hlen : w1.length = w2.length)
    (hv : lval A.length (digitsRev A w1) = lval A.length (digitsRev A w2)) :
    w1 = w2 := by
  have hd : digitsRev A w1 = digitsRev A w2 :=
    lval_inj A.length hm _ _ (by rw [length_digitsRev, length_digitsRev, hlen])
      (digitsRev_lt h1) (digitsRev_lt h2) hv
  apply eq_of_map_indexOf_eq h1 h2
  have := congrArg List.reverse hd
  simpa [digitsRev] using this

theorem lval_replicate_zero (m L : ℕ) : lval m (List.replicate L 0) = 0 := by
  induction L with
  | zero => rfl
  | succ L ih => simp [List.replicate_succ, lval, ih]

theorem iterate_odometer_facts (A : List ℤ) (hA : A ≠ []) (hnd : A.Nodup)
    (L : ℕ) :
    ∀ k : ℕ,
      ((fun w => odometerSuccessor w A)^[k] (List.replicate L (A.headD 0))).length = L ∧
      (∀ c ∈ (fun w => odometerSuccessor w A)^[k] (List.replicate L (A.headD 0)), c ∈ A) ∧
      lval A.length
        (digitsRev A ((fun w => odometerSuccessor w A)^[k] (List.replicate L (A.headD 0)))) =
        k % A.length ^ L := by
  intro k
  induction k with
  | zero =>
    simp only [Function.iterate_zero, id]
    refine ⟨List.length_replicate .., ?_, ?_⟩
    · intro c hc
      rw [List.eq_of_mem_replicate hc]
      exact headD_mem A hA
    · have hd0 : digitsRev A (List.replicate L (A.headD 0)) = List.replicate L 0 := by
        rw [digitsRev, List.map_replicate, headD_indexOf A hA, List.reverse_replicate]
      rw [hd0, lval_replicate_zero, Nat.zero_mod]
  | succ k ih =>
    obtain ⟨hlen, hmem, hval⟩ := ih
    rw [Function.iterate_succ_apply']
    refine ⟨?_, ?_, ?_⟩
    · rw [(odometerSuccessor_length_mem A hA _ hmem).1, hlen]
    · exact (odometerSuccessor_length_mem A hA _ hmem).2
    · rw [digitsRev_odometer A hA hnd _ hmem,
        lval_incr A.length (List.length_pos.mpr hA) _ (digitsRev_lt hmem),
        length_digitsRev]
      rw [hlen, hval, Nat.mod_add_mod]

/-- Claim C3: over a non-empty duplicate-free alphabet of size `m`, iterating
`odometerSuccessor` from the all-minimum word of length `L` returns to the
start after exactly `m ^ L` steps, and every length-`L` word over the alphabet
is reached by exactly one iterate index below `m ^ L`. -/
theorem odometerSuccessor_enumerates (A : List ℤ) (L : ℕ) (hA : A ≠ [])
    (hnd : A.Nodup) (_hL : 1 ≤ L) :
    (fun w => odometerSuccessor w A)^[A.length ^ L]
        (List.replicate L (A.headD 0)) = List.replicate L (A.headD 0) ∧
    ∀ w : List ℤ, w.length = L → (∀ c ∈ w, c ∈ A) →
      ∃! k, k < A.length ^ L ∧
        (fun w => odometerSuccessor w A)^[k] (List.replicate L (A.headD 0)) = w := by
  have hm : 0 < A.length := List.length_pos.mpr hA
  have hs := iterate_odometer_facts A hA hnd L 0
  simp only [Function.iterate_zero, id] at hs
  obtain ⟨hslen, hsmem, hsval⟩ := hs
  constructor
  · obtain ⟨hlen, hmem, hval⟩ := iterate_odometer_facts A hA hnd L (A.length ^ L)
    refine words_eq_of_lval_eq hm hmem hsmem (by rw [hlen, hslen]) ?_
    rw [hval, hsval, Nat.mod_self, Nat.zero_mod]
  · intro w hwlen hwmem
    have hwlt : lval A.length (digitsRev A w) < A.length ^ L := by
      have := lval_lt A.length (digitsRev A w) (digitsRev_lt hwmem)
      rwa [length_digitsRev, hwlen] at this
    refine ⟨lval A.length (digitsRev A w), ⟨hwlt, ?_⟩, ?_⟩
    · obtain ⟨hlen, hmem, hval⟩ :=
        iterate_odometer_facts A hA hnd L (lval A.length (digitsRev A w))
      refine words_eq_of_lval_eq hm hmem hwmem (by rw [hlen, hwlen]) ?_
      rw [hval, Nat.mod_eq_of_lt hwlt]
    · rintro k ⟨hk, rfl⟩
      obtain ⟨hlen, hmem, hval⟩ := iterate_odometer_facts A hA hnd L k
      rw [hval, Nat.mod_eq_of_lt hk]

theorem odometerSuccessor_enumerates_witness :
    ([1, -1] : List ℤ) ≠ [] ∧ ([1, -1] : List ℤ).Nodup ∧ 1 ≤ 2 ∧
    ((fun w => odometerSuccessor w [1, -1])^[([1, -1] : List ℤ).length ^ 2]
        (List.replicate 2 (([1, -1] : List ℤ).headD 0)) =
      List.replicate 2 (([1, -1] : List ℤ).headD 0) ∧
     ∀ w : List ℤ, w.length = 2 → (∀ c ∈ w, c ∈ ([1, -1] : List ℤ)) →
       ∃! k, k < ([1, -1] : List ℤ).length ^ 2 ∧
         (fun w => odometerSuccessor w [1, -1])^[k]
           (List.replicate 2 (([1, -1] : List ℤ).headD 0)) = w) :=
  ⟨by decide, by decide, by decide,
    odometerSuccessor_enumerates [1, -1] 2 (by decide) (by decide) (by decide)⟩

/-! ### Non-decreasing partitions: claim C4 -/

theorem mem_ndpsw (n : ℕ) :
    ∀ k l, 1 ≤ k →
      (l ∈ nondecreasingPartitionsStartingWith k n ↔
        l.head? = some k ∧ l.Sorted (· ≤ ·) ∧ l.sum = n) := by
  induction n using Nat.strong_induction_on with
  | _ n ih =>
    intro k l hk
    rw [nondecreasingPartitionsStartingWith]
    by_cases hkn : k = n
    · rw [if_pos hkn]
      constructor
      · intro hl
        rcases List.mem_singleton.mp hl with rfl
        exact ⟨by rw [hkn]; rfl, by simp, by simp⟩
      · rintro ⟨hh, hs, hsum⟩
        cases l with
        | nil => simp at hh
        | cons a t =>
          have ha : a = k := by simpa using hh
          subst ha
          cases t with
          | nil =>
            simp only [List.sum_cons, List.sum_nil, Nat.add_zero] at hsum
            simp [hsum]
          | cons b t' =>
            exfalso
            have hab : a ≤ b := (List.sorted_cons.mp hs).1 b (by simp)
            simp only [List.sum_cons] at hsum
            omega
    · rw [if_neg hkn]
      by_cases hlt : k < n
      · rw [dif_pos ⟨hk, hlt⟩]
        simp only [List.mem_flatMap, List.mem_map]
        constructor
        · rintro ⟨i, hi, t, ht, rfl⟩
          rw [List.mem_range'_1] at hi
          have h1i : 1 ≤ i := by omega
          obtain ⟨hth, hts, htsum⟩ := (ih (n - k) (by omega) i t h1i).mp ht
          refine ⟨rfl, ?_, ?_⟩
          · rw [List.sorted_cons]
            refine ⟨?_, hts⟩
            intro b hb
            cases t with
            | nil => simp at hth
            | cons a t' =>
              have ha : a = i := by simpa using hth
              rcases List.mem_cons.mp hb with rfl | hb'
              · omega
              · have := (List.sorted_cons.mp hts).1 b hb'
                omega
          · simp only [List.sum_cons, htsum]
            omega
        · rintro ⟨hh, hs, hsum⟩
          cases l with
          | nil => simp at hh
          | cons a t =>
            have ha : a = k := by simpa using hh
            subst ha
            cases t with
            | nil =>
              simp only [List.sum_cons, List.sum_nil, Nat.add_zero] at hsum
              exact absurd hsum hkn
            | cons b t' =>
              have hab : a ≤ b := (List.sorted_cons.mp hs).1 b (by simp)
              simp only [List.sum_cons] at hsum
              refine ⟨b, ?_, b :: t', ?_, rfl⟩
              · rw [List.mem_range'_1]
                omega
              · refine ((ih (n - a) (by omega) b (b :: t') (by omega)).mpr
                  ⟨rfl, (List.sorted_cons.mp hs).2, ?_⟩)
                simp only [List.sum_cons]
                omega
      · rw [dif_neg (by omega)]
        simp only [List.not_mem_nil, false_iff]
        rintro ⟨hh, hs, hsum⟩
        cases l with
        | nil => simp at hh
        | cons a t =>
          have ha : a = k := by simpa using hh
          subst ha
          simp only [List.sum_cons] at hsum
          omega

theorem ndpsw_nodup (n : ℕ) :
    ∀ k, 1 ≤ k → (nondecreasingPartitionsStartingWith k n).Nodup := by
  induction n using Nat.strong_induction_on with
  | _ n ih =>
    intro k hk
    rw [nondecreasingPartitionsStartingWith]
    by_cases hkn : k = n
    · rw [if_pos hkn]
      simp
    · rw [if_neg hkn]
      by_cases hlt : k < n
      · rw [dif_pos ⟨hk, hlt⟩]
        rw [List.nodup_flatMap]
        constructor
        · intro i hi
          rw [List.mem_range'_1] at hi
          refine List.Nodup.map ?_ (ih (n - k) (by omega) i (by omega))
          intro x y hxy
          simpa using hxy
        · refine List.Pairwise.imp_of_mem ?_ (List.pairwise_lt_range' _ _)
          intro i j hi hj hij
          simp only [Function.onFun]
          intro l hl1 hl2
          rw [List.mem_range'_1] at hi hj
          simp only [List.mem_map] at hl1 hl2
          obtain ⟨t1, ht1, rfl⟩ := hl1
          obtain ⟨t2, ht2, heq⟩ := hl2
          have ht12 : t2 = t1 := by
            have := heq
            simp only [List.cons.injEq] at this
            exact this.2
          subst ht12
          have hh1 := ((mem_ndpsw (n - k) i t2 (by omega)).mp ht1).1
          have hh2 := ((mem_ndpsw (n - k) j t2 (by omega)).mp ht2).1
          rw [hh1] at hh2
          have : i = j := by simpa using hh2
          omega
      · rw [dif_neg (by omega)]
        simp

/-- Claim C4: for positive `n`, `nondecreasingPartitions(n)` lists every
non-decreasing sequence of positive integers summing to `n` exactly once and
nothing else, and `nondecreasingPartitions(5)` is exactly the seven claimed
partitions of 5 in the claimed order. -/
theorem nondecreasingPartitions_correct (n : ℕ) (hn : 1 ≤ n) :
    ((nondecreasingPartitions n).Nodup ∧
     ∀ l : List ℕ, l ∈ nondecreasingPartitions n ↔
       (l.Sorted (· ≤ ·) ∧ (∀ x ∈ l, 0 < x) ∧ l.sum = n)) ∧
    nondecreasingPartitions 5 =
      [[1, 1, 1, 1, 1], [1, 1, 1, 2], [1, 1, 3], [1, 2, 2], [1, 4], [2, 3], [5]] := by
  refine ⟨⟨?_, ?_⟩, ?_⟩
  · rw [nondecreasingPartitions, List.nodup_flatMap]
    constructor
    · intro i hi
      rw [List.mem_range'_1] at hi
      exact ndpsw_nodup n i (by omega)
    · refine List.Pairwise.imp_of_mem ?_ (List.pairwise_lt_range' _ _)
      intro i j hi hj hij
      simp only [Function.onFun]
      intro l hl1 hl2
      rw [List.mem_range'_1] at hi hj
      have hh1 := ((mem_ndpsw n i l (by omega)).mp hl1).1
      have hh2 := ((mem_ndpsw n j l (by omega)).mp hl2).1
      rw [hh1] at hh2
      have : i = j := by simpa using hh2
      omega
  · intro l
    rw [nondecreasingPartitions, List.mem_flatMap]
    constructor
    · rintro ⟨i, hi, hl⟩
      rw [List.mem_range'_1] at hi
      obtain ⟨hh, hs, hsum⟩ := (mem_ndpsw n i l (by omega)).mp hl
      refine ⟨hs, ?_, hsum⟩
      cases l with
      | nil => simp at hh
      | cons a t =>
        have ha : a = i := by simpa using hh
        intro x hx
        rcases List.mem_cons.mp hx with rfl | hx'
        · omega
        · have := (List.sorted_cons.mp hs).1 x hx'
          omega
    · rintro ⟨hs, hpos, hsum⟩
      cases l with
      | nil =>
        simp only [List.sum_nil] at hsum
        omega
      | cons a t =>
        have ha1 : 1 ≤ a := hpos a (by simp)
        have han : a ≤ n := by
          simp only [List.sum_cons] at hsum
          omega
        refine ⟨a, ?_, (mem_ndpsw n a _ ha1).mpr ⟨rfl, hs, hsum⟩⟩
        rw [List.mem_range'_1]
        omega
  · have e11 : nondecreasingPartitionsStartingWith 1 1 = [[1]] := by
      rw [nondecreasingPartitionsStartingWith]; norm_num
    have e22 : nondecreasingPartitionsStartingWith 2 2 = [[2]] := by
      rw [nondecreasingPartitionsStartingWith]; norm_num
    have e33 : nondecreasingPartitionsStartingWith 3 3 = [[3]] := by
      rw [nondecreasingPartitionsStartingWith]; norm_num
    have e44 : nondecreasingPartitionsStartingWith 4 4 = [[4]] := by
      rw [nondecreasingPartitionsStartingWith]; norm_num
    have e55 : nondecreasingPartitionsStartingWith 5 5 = [[5]] := by
      rw [nondecreasingPartitionsStartingWith]; norm_num
    have e23 : nondecreasingPartitionsStartingWith 2 3 = [] := by
      rw [nondecreasingPartitionsStartingWith]; norm_num
    have e12 : nondecreasingPartitionsStartingWith 1 2 = [[1, 1]] := by
      rw [nondecreasingPartitionsStartingWith]; norm_num [List.range', e11]
    have e13 : nondecreasingPartitionsStartingWith 1 3 = [[1, 1, 1], [1, 2]] := by
      rw [nondecreasingPartitionsStartingWith]; norm_num [List.range', e12, e22]
    have e24 : nondecreasingPartitionsStartingWith 2 4 = [[2, 2]] := by
      rw [nondecreasingPartitionsStartingWith]; norm_num [List.range', e22]
    have e34 : nondecreasingPartitionsStartingWith 3 4 = [] := by
      rw [nondecreasingPartitionsStartingWith]; norm_num
    have e14 : nondecreasingPartitionsStartingWith 1 4 = [[1, 1, 1, 1], [1, 1, 2], [1, 3]] := by
      rw [nondecreasingPartitionsStartingWith]; norm_num [List.range', e13, e23, e33]
    have e25 : nondecreasingPartitionsStartingWith 2 5 = [[2, 3]] := by
      rw [nondecreasingPartitionsStartingWith]; norm_num [List.range', e23, e33]
    have e35 : nondecreasingPartitionsStartingWith 3 5 = [] := by
      rw [nondecreasingPartitionsStartingWith]; norm_num
    have e45 : nondecreasingPartitionsStartingWith 4 5 = [] := by
      rw [nondecreasingPartitionsStartingWith]; norm_num
    have e15 : nondecreasingPartitionsStartingWith 1 5 =
        [[1, 1, 1, 1, 1], [1, 1, 1, 2], [1, 1, 3], [1, 2, 2], [1, 4]] := by
      rw [nondecreasingPartitionsStartingWith]; norm_num [List.range', e14, e24, e34, e44]
    rw [nondecreasingPartitions]
    norm_num [List.range', e15, e25, e35, e45, e55]

theorem nondecreasingPartitions_correct_witness :
    1 ≤ 5 ∧
    (((nondecreasingPartitions 5).Nodup ∧
      ∀ l : List ℕ, l ∈ nondecreasingPartitions 5 ↔
        (l.Sorted (· ≤ ·) ∧ (∀ x ∈ l, 0 < x) ∧ l.sum = 5)) ∧
     nondecreasingPartitions 5 =
       [[1, 1, 1, 1, 1], [1, 1, 1, 2], [1, 1, 3], [1, 2, 2], [1, 4], [2, 3], [5]]) :=
  ⟨by decide, nondecreasingPartitions_correct 5 (by decide)⟩
